import Mathlib

/-!
Shallow embedding of `src/creds.rs` (crate `ope`): a credential store
mapping usernames to passwords, with a colon-delimited line-oriented
text codec.

Modelling conventions:
* Rust `String` values are modelled as `List Char` (`Str` below), so that
  the character-level operations (`contains`, `split_once`, line splitting)
  are structural recursions.
* `indexmap::IndexMap<String, String>` is modelled as an association list
  `List (Str × Str)`; `IndexMap::insert` overwrites the value in place
  (keeping the key at its original position) or appends a fresh key at the
  end, which is exactly `insertPair` below.
* `Creds::write` takes an abstract infallible writer; we model the writer
  as the string of bytes emitted so far.  The `io::Result` is modelled as
  `Option WriteError`: `none` is `Ok(())`, `some .invalidData` is the
  `io::ErrorKind::InvalidData` validation error raised by `write`.
  Underlying stream I/O failures (which `writeln!` could surface) are
  outside the model; `write` itself raises only `InvalidData`.
* `Creds::read` consumes `reader.lines()`.  `BufRead::lines` yields the
  stream split at `'\n'` bytes: each yielded line has a trailing `'\n'`
  removed and then a trailing `'\r'` removed (CRLF handling), and a final
  chunk not terminated by `'\n'` is yielded as-is.  `splitLines` models
  this exactly.  Stream read errors are again outside the model, so
  `read` is total.
* The `Index` impl panics on a missing username; the panic is modelled by
  `Creds.index` returning `none`.
-/

/-- Rust `String` contents, as a list of characters. -/
abbrev Str := List Char

def colonChar : Char := ':'

def newlineChar : Char := '\n'

def crChar : Char := '\r'

/-- Model of Rust `str::contains(char)`. -/
def containsChar (t : Char) : Str → Bool
  | [] => false
  | c :: rest => c = t || containsChar t rest

/-- Model of `IndexMap::insert`: overwrite in place if the key is present,
otherwise append the new pair at the end. -/
def insertPair (u p : Str) : List (Str × Str) → List (Str × Str)
  | [] => [(u, p)]
  | (k, v) :: rest => if k = u then (k, p) :: rest else (k, v) :: insertPair u p rest

/-- Model of `IndexMap::get`: value of the first (hence, under key
uniqueness, only) entry with the given key. -/
def getPair (u : Str) : List (Str × Str) → Option Str
  | [] => none
  | (k, v) :: rest => if k = u then some v else getPair u rest

/-- The credential store `Creds { map: IndexMap<String, String> }`. -/
structure Creds where
  map : List (Str × Str)
deriving DecidableEq

/-- Model of `Creds::new`. -/
def Creds.new : Creds := ⟨[]⟩

/-- Model of `Creds::clear` (state after clearing). -/
def Creds.clear (_c : Creds) : Creds := ⟨[]⟩

/-- Model of `Creds::insert` (state after inserting). -/
def Creds.insert (c : Creds) (username password : Str) : Creds :=
  ⟨insertPair username password c.map⟩

/-- Model of `Creds::get`. -/
def Creds.get (c : Creds) (username : Str) : Option Str :=
  getPair username c.map

/-- Model of the `Index` impl for `Creds`: `none` models the
`panic!("username not present: ...")` branch. -/
def Creds.index (c : Creds) (username : Str) : Option Str :=
  match c.get username with
  | some s => some s
  | none => none

/-- The error value of `io::Error::new(io::ErrorKind::InvalidData, ...)`
raised by `Creds::write`. -/
inductive WriteError
  | invalidData
deriving DecidableEq

/-- One serialized entry: `writeln!(writer, "{}:{}", username, password)`. -/
def lineOf (u p : Str) : Str := u ++ colonChar :: (p ++ [newlineChar])

/-- The validity check of `Creds::write`, negated: `validEntry u p = true`
iff `!(username.contains(':') || username.contains('\n') ||
password.contains('\n'))`. -/
def validEntry (u p : Str) : Bool :=
  !(containsChar colonChar u || containsChar newlineChar u || containsChar newlineChar p)

/-- The loop of `Creds::write` over the entries: returns the bytes emitted
to the writer together with the result (`none` = `Ok(())`). -/
def writeAux : List (Str × Str) → Str × Option WriteError
  | [] => ([], none)
  | (u, p) :: rest =>
    if containsChar colonChar u || containsChar newlineChar u || containsChar newlineChar p then
      ([], some WriteError.invalidData)
    else
      let r := writeAux rest
      (lineOf u p ++ r.1, r.2)

/-- Model of `Creds::write`: bytes emitted and result. -/
def Creds.write (c : Creds) : Str × Option WriteError := writeAux c.map

/-- Serialized form of a list of entries (all assumed valid): the
concatenation of their lines. -/
def linesOut : List (Str × Str) → Str
  | [] => []
  | (u, p) :: rest => lineOf u p ++ linesOut rest

/-- Helper for `splitLines`: the accumulator holds the current line
reversed; a trailing carriage return (the head of the reversed line) is
dropped, as `BufRead::lines` does after removing the `'\n'`. -/
def dropLastCR : Str → Str
  | [] => []
  | c :: rest => if c = crChar then rest else c :: rest

/-- Core of the model of `BufRead::lines`: split at `'\n'`, strip the
terminator and a preceding `'\r'`; a final chunk without a terminator is
yielded as-is, and nothing is yielded after a final terminator. -/
def splitLinesAux (acc : Str) : Str → List Str
  | [] => if acc.isEmpty then [] else [acc.reverse]
  | c :: rest =>
    if c = newlineChar then (dropLastCR acc).reverse :: splitLinesAux [] rest
    else splitLinesAux (c :: acc) rest

/-- Model of `BufRead::lines` applied to the whole stream contents. -/
def splitLines (s : Str) : List Str := splitLinesAux [] s

/-- Model of `str::split_once(':')`: split at the first colon, or `none`
if the string has no colon. -/
def splitOnce : Str → Option (Str × Str)
  | [] => none
  | c :: rest =>
    if c = colonChar then some ([], rest)
    else
      match splitOnce rest with
      | some (u, p) => some (c :: u, p)
      | none => none

/-- The loop of `Creds::read` over the yielded lines, starting from an
accumulated store. -/
def readLines (c : Creds) : List Str → Creds
  | [] => c
  | l :: ls =>
    match splitOnce l with
    | some (u, p) => readLines (c.insert u p) ls
    | none => readLines c ls

/-- Model of `Creds::read` on the whole stream contents. -/
def Creds.read (s : Str) : Creds := readLines Creds.new (splitLines s)

/-- The keys of an association list, in order. -/
def keysOf (m : List (Str × Str)) : List Str := m.map Prod.fst

/-- Well-formedness invariant of the store: usernames are unique.  This is
an invariant of `IndexMap` itself; every store reachable through the API
satisfies it. -/
abbrev Wf (c : Creds) : Prop := (keysOf c.map).Nodup

/-- Folding `insertPair` over a list of parsed pairs, in order: the shape
of the store `Creds::read` builds. -/
def insertAll (m : List (Str × Str)) : List (Str × Str) → List (Str × Str)
  | [] => m
  | (u, p) :: ps => insertAll (insertPair u p m) ps

/-- The pairs successfully split out of a stream, in file order. -/
def pairsOf (s : Str) : List (Str × Str) :=
  (splitLines s).filterMap splitOnce

/-- Last-one-wins lookup in a list of pairs: the value of the last pair
with the given key. -/
def lastVal (u : Str) : List (Str × Str) → Option Str
  | [] => none
  | (k, v) :: rest =>
    match lastVal u rest with
    | some w => some w
    | none => if k = u then some v else none

/-- Order of first appearance of the keys of a pair list, skipping keys
already seen. -/
def firstOrder (seen : List Str) : List (Str × Str) → List Str
  | [] => []
  | (k, _) :: rest =>
    if k ∈ seen then firstOrder seen rest
    else k :: firstOrder (k :: seen) rest

/-- Whether a string ends with a carriage return (the character that
`BufRead::lines` strips from a line end, in addition to `'\n'`). -/
def endsWithCR (l : Str) : Bool :=
  match l.reverse with
  | [] => false
  | c :: _ => c = crChar

theorem getPair_insertPair (u k v : Str) (m : List (Str × Str)) :
    getPair u (insertPair k v m) = if k = u then some v else getPair u m := by
  induction m with
  | nil => simp [insertPair, getPair]
  | cons q rest ih =>
    obtain ⟨a, b⟩ := q
    by_cases hak : a = k
    · subst hak
      by_cases hau : a = u
      · subst hau
        simp [insertPair, getPair]
      · simp [insertPair, getPair, hau]
    · by_cases hau : a = u
      · subst hau
        have hku : ¬k = a := fun h => hak h.symm
        simp [insertPair, getPair, hak, hku]
      · simp [insertPair, getPair, hak, hau, ih]

theorem keysOf_insertPair (k v : Str) (m : List (Str × Str)) :
    keysOf (insertPair k v m) =
      if k ∈ keysOf m then keysOf m else keysOf m ++ [k] := by
  induction m with
  | nil => simp [insertPair, keysOf]
  | cons q rest ih =>
    obtain ⟨a, b⟩ := q
    by_cases hak : a = k
    · subst hak
      simp [insertPair, keysOf]
    · have hka : ¬k = a := fun h => hak h.symm
      simp only [insertPair, hak, if_false]
      simp only [keysOf, List.map_cons] at ih ⊢
      by_cases hm : k ∈ List.map Prod.fst rest
      · simp only [hm, if_true] at ih
        simp [List.mem_cons, hka, hm, ih]
      · simp only [hm, if_false] at ih
        simp [List.mem_cons, hka, hm, ih]

theorem nodup_keysOf_insertPair (k v : Str) (m : List (Str × Str))
    (h : (keysOf m).Nodup) : (keysOf (insertPair k v m)).Nodup := by
  rw [keysOf_insertPair]
  by_cases hm : k ∈ keysOf m
  · simpa [hm] using h
  · simp only [hm, if_false]
    rw [List.nodup_append]
    refine ⟨h, List.nodup_singleton k, ?_⟩
    intro a ha hb
    simp only [List.mem_singleton] at hb
    subst hb
    exact hm ha

theorem insertPair_notMem (k v : Str) (m : List (Str × Str))
    (h : k ∉ keysOf m) : insertPair k v m = m ++ [(k, v)] := by
  induction m with
  | nil => simp [insertPair]
  | cons q rest ih =>
    obtain ⟨a, b⟩ := q
    simp only [keysOf, List.map_cons, List.mem_cons] at h
    push_neg at h
    have hak : ¬a = k := fun hh => h.1 hh.symm
    simp [insertPair, hak, ih h.2]

theorem getPair_eq_none_iff (u : Str) (m : List (Str × Str)) :
    getPair u m = none ↔ u ∉ keysOf m := by
  induction m with
  | nil => simp [getPair, keysOf]
  | cons q rest ih =>
    obtain ⟨a, b⟩ := q
    by_cases hau : a = u
    · subst hau
      simp [getPair, keysOf]
    · have hua : ¬u = a := fun h => hau h.symm
      simp [getPair, keysOf, hau, hua, ih]

theorem getPair_mem (u p : Str) (m : List (Str × Str))
    (h : getPair u m = some p) : (u, p) ∈ m := by
  induction m with
  | nil => simp [getPair] at h
  | cons q rest ih =>
    obtain ⟨a, b⟩ := q
    by_cases hau : a = u
    · subst hau
      simp only [getPair, if_true, eq_self_iff_true, Option.some.injEq] at h
      subst h
      exact List.mem_cons_self _ _
    · simp only [getPair, hau, if_false] at h
      exact List.mem_cons_of_mem _ (ih h)

theorem mem_getPair (u p : Str) (m : List (Str × Str))
    (hwf : (keysOf m).Nodup) (h : (u, p) ∈ m) : getPair u m = some p := by
  induction m with
  | nil => simp at h
  | cons q rest ih =>
    obtain ⟨a, b⟩ := q
    simp only [keysOf, List.map_cons, List.nodup_cons] at hwf
    rcases List.mem_cons.mp h with h1 | h2
    · rw [← h1]
      simp [getPair]
    · have hau : ¬a = u := by
        intro hh
        subst hh
        exact hwf.1 (by simpa [keysOf] using List.mem_map_of_mem Prod.fst h2)
      simp [getPair, hau, ih hwf.2 h2]

theorem getPair_insertAll (u : Str) (m ps : List (Str × Str)) :
    getPair u (insertAll m ps) =
      match lastVal u ps with
      | some w => some w
      | none => getPair u m := by
  induction ps generalizing m with
  | nil => simp [insertAll, lastVal]
  | cons q rest ih =>
    obtain ⟨k, v⟩ := q
    simp only [insertAll, lastVal]
    rw [ih]
    cases lastVal u rest with
    | some w => simp
    | none =>
      simp only
      rw [getPair_insertPair]
      by_cases hk : k = u <;> simp [hk]

theorem firstOrder_congr (ps : List (Str × Str)) (s1 s2 : List Str)
    (h : ∀ x, x ∈ s1 ↔ x ∈ s2) : firstOrder s1 ps = firstOrder s2 ps := by
  induction ps generalizing s1 s2 with
  | nil => simp [firstOrder]
  | cons q rest ih =>
    obtain ⟨k, v⟩ := q
    by_cases hk : k ∈ s1
    · simp [firstOrder, hk, (h k).mp hk, ih s1 s2 h]
    · have hk2 : k ∉ s2 := fun hh => hk ((h k).mpr hh)
      have hext : ∀ x, x ∈ k :: s1 ↔ x ∈ k :: s2 := by
        intro x
        simp [List.mem_cons, h x]
      simp [firstOrder, hk, hk2, ih (k :: s1) (k :: s2) hext]

theorem keysOf_insertAll (m ps : List (Str × Str)) :
    keysOf (insertAll m ps) = keysOf m ++ firstOrder (keysOf m) ps := by
  induction ps generalizing m with
  | nil => simp [insertAll, firstOrder]
  | cons q rest ih =>
    obtain ⟨k, v⟩ := q
    simp only [insertAll, firstOrder]
    rw [ih, keysOf_insertPair]
    by_cases hk : k ∈ keysOf m
    · simp [hk]
    · have hext : ∀ x, x ∈ keysOf m ++ [k] ↔ x ∈ k :: keysOf m := by
        intro x
        simp [List.mem_append, List.mem_cons, or_comm]
      simp only [hk, if_true, if_false]
      rw [firstOrder_congr rest _ _ hext]
      simp

theorem insertAll_disjoint (m ps : List (Str × Str))
    (hnd : (keysOf ps).Nodup) (hdisj : ∀ k ∈ keysOf ps, k ∉ keysOf m) :
    insertAll m ps = m ++ ps := by
  induction ps generalizing m with
  | nil => simp [insertAll]
  | cons q rest ih =>
    obtain ⟨k, v⟩ := q
    simp only [keysOf, List.map_cons, List.nodup_cons] at hnd
    have hkm : k ∉ keysOf m := hdisj k (by simp [keysOf])
    simp only [insertAll]
    rw [insertPair_notMem k v m hkm]
    rw [ih (m ++ [(k, v)]) hnd.2]
    · simp
    · intro a ha
      rw [keysOf, List.map_append]
      simp only [List.mem_append]
      push_neg
      constructor
      · exact hdisj a (by simp [keysOf] at ha ⊢; exact Or.inr ha)
      · simp only [List.map_cons, List.map_nil, List.mem_singleton]
        intro hh
        subst hh
        exact hnd.1 (by simpa [keysOf] using ha)

theorem readLines_eq_insertAll (c : Creds) (ls : List Str) :
    readLines c ls = ⟨insertAll c.map (ls.filterMap splitOnce)⟩ := by
  induction ls generalizing c with
  | nil => simp [readLines, insertAll]
  | cons l rest ih =>
    simp only [readLines, List.filterMap_cons]
    cases h : splitOnce l with
    | none => simp [ih]
    | some q =>
      obtain ⟨u, p⟩ := q
      simp [ih, insertAll, Creds.insert]

theorem writeAux_all_valid (m : List (Str × Str))
    (h : ∀ q ∈ m, validEntry q.1 q.2 = true) :
    writeAux m = (linesOut m, none) := by
  induction m with
  | nil => simp [writeAux, linesOut]
  | cons q rest ih =>
    obtain ⟨u, p⟩ := q
    have hq : validEntry u p = true := h (u, p) (List.mem_cons_self _ _)
    simp only [validEntry, Bool.not_eq_true', Bool.or_eq_false_iff] at hq
    simp only [writeAux, hq.1.1, hq.1.2, hq.2, Bool.or_self, Bool.false_or, if_false]
    rw [ih fun q hq2 => h q (List.mem_cons_of_mem _ hq2)]
    simp [linesOut]

theorem writeAux_first_invalid (pre : List (Str × Str)) (u p : Str)
    (post : List (Str × Str))
    (hpre : ∀ q ∈ pre, validEntry q.1 q.2 = true)
    (hbad : validEntry u p = false) :
    writeAux (pre ++ (u, p) :: post) = (linesOut pre, some WriteError.invalidData) := by
  induction pre with
  | nil =>
    simp only [validEntry, Bool.not_eq_false', Bool.or_eq_true_iff] at hbad
    simp only [List.nil_append, writeAux, linesOut]
    rcases hbad with h1 | h2
    · rcases h1 with h1a | h1b
      · simp [h1a]
      · simp [h1b]
    · simp [h2]
  | cons q rest ih =>
    obtain ⟨a, b⟩ := q
    have hq : validEntry a b = true := hpre (a, b) (List.mem_cons_self _ _)
    simp only [validEntry, Bool.not_eq_true', Bool.or_eq_false_iff] at hq
    have ih2 := ih fun q hq2 => hpre q (List.mem_cons_of_mem _ hq2)
    simp [writeAux, hq.1.1, hq.1.2, hq.2, linesOut, ih2]

theorem validEntry_components (u p : Str) (h : validEntry u p = true) :
    containsChar colonChar u = false ∧ containsChar newlineChar u = false ∧
      containsChar newlineChar p = false := by
  simp only [validEntry, Bool.not_eq_true', Bool.or_eq_false_iff] at h
  exact ⟨h.1.1, h.1.2, h.2⟩

theorem containsChar_append (t : Char) (a b : Str) :
    containsChar t (a ++ b) = (containsChar t a || containsChar t b) := by
  induction a with
  | nil => simp [containsChar]
  | cons c rest ih => simp [containsChar, ih, Bool.or_assoc]

theorem splitLinesAux_newline (l : Str) (rest acc : Str)
    (hl : containsChar newlineChar l = false) :
    splitLinesAux acc (l ++ newlineChar :: rest)
      = (dropLastCR (l.reverse ++ acc)).reverse :: splitLinesAux [] rest := by
  induction l generalizing acc with
  | nil => simp [splitLinesAux]
  | cons c rest2 ih =>
    simp only [containsChar, Bool.or_eq_false_iff, decide_eq_false_iff_not] at hl
    simp only [List.cons_append, splitLinesAux, hl.1, if_false, List.append_eq]
    rw [ih (c :: acc) hl.2]
    simp [List.append_assoc]

theorem dropLastCR_of_no_cr (l : Str) (h : endsWithCR l = false) :
    dropLastCR l.reverse = l.reverse := by
  cases hl : l.reverse with
  | nil => simp [dropLastCR]
  | cons c cs =>
    simp only [endsWithCR, hl, decide_eq_false_iff_not] at h
    simp [dropLastCR, h]

theorem endsWithCR_line (u p : Str) (h : endsWithCR p = false) :
    endsWithCR (u ++ colonChar :: p) = false := by
  cases hp : p.reverse with
  | nil =>
    have : p = [] := by simpa using congrArg List.reverse hp
    subst this
    simp [endsWithCR, colonChar, crChar]
  | cons c cs =>
    simp only [endsWithCR, hp, decide_eq_false_iff_not] at h
    simp [endsWithCR, List.reverse_append, hp, h]

theorem splitOnce_line (u p : Str) (h : containsChar colonChar u = false) :
    splitOnce (u ++ colonChar :: p) = some (u, p) := by
  induction u with
  | nil => simp [splitOnce]
  | cons c rest ih =>
    simp only [containsChar, Bool.or_eq_false_iff, decide_eq_false_iff_not] at h
    simp only [List.cons_append, splitOnce, h.1, if_false, List.append_eq]
    rw [ih h.2]

theorem splitLines_linesOut (m : List (Str × Str))
    (hval : ∀ q ∈ m, validEntry q.1 q.2 = true)
    (hcr : ∀ q ∈ m, endsWithCR q.2 = false) :
    splitLines (linesOut m) = m.map fun q => q.1 ++ colonChar :: q.2 := by
  induction m with
  | nil => simp [linesOut, splitLines, splitLinesAux]
  | cons q rest ih =>
    obtain ⟨u, p⟩ := q
    have hq := validEntry_components u p (hval (u, p) (List.mem_cons_self _ _))
    have hqcr : endsWithCR p = false := hcr (u, p) (List.mem_cons_self _ _)
    have hshape : linesOut ((u, p) :: rest)
        = (u ++ colonChar :: p) ++ newlineChar :: linesOut rest := by
      simp [linesOut, lineOf, List.append_assoc]
    have hnl : containsChar newlineChar (u ++ colonChar :: p) = false := by
      rw [containsChar_append]
      simp only [containsChar, hq.2.1, hq.2.2, Bool.false_or]
      simp [colonChar, newlineChar]
    rw [splitLines, hshape, splitLinesAux_newline _ _ _ hnl, List.append_nil,
      dropLastCR_of_no_cr _ (endsWithCR_line u p hqcr), List.reverse_reverse]
    rw [← splitLines]
    rw [ih (fun q hq2 => hval q (List.mem_cons_of_mem _ hq2))
      (fun q hq2 => hcr q (List.mem_cons_of_mem _ hq2))]
    simp

theorem filterMap_splitOnce_lines (m : List (Str × Str))
    (hval : ∀ q ∈ m, validEntry q.1 q.2 = true) :
    (m.map fun q => q.1 ++ colonChar :: q.2).filterMap splitOnce = m := by
  induction m with
  | nil => simp
  | cons q rest ih =>
    obtain ⟨u, p⟩ := q
    have hq := validEntry_components u p (hval (u, p) (List.mem_cons_self _ _))
    simp only [List.map_cons, List.filterMap_cons, splitOnce_line u p hq.1]
    rw [ih fun q hq2 => hval q (List.mem_cons_of_mem _ hq2)]

theorem nodup_keysOf_insertAll (m ps : List (Str × Str))
    (h : (keysOf m).Nodup) : (keysOf (insertAll m ps)).Nodup := by
  induction ps generalizing m with
  | nil => simpa [insertAll] using h
  | cons q rest ih =>
    obtain ⟨k, v⟩ := q
    exact ih (insertPair k v m) (nodup_keysOf_insertPair k v m h)

theorem splitOnce_eq_none (l : Str) (h : containsChar colonChar l = false) :
    splitOnce l = none := by
  induction l with
  | nil => simp [splitOnce]
  | cons c rest ih =>
    simp only [containsChar, Bool.or_eq_false_iff, decide_eq_false_iff_not] at h
    simp [splitOnce, h.1, ih h.2]

theorem exists_first_invalid (m : List (Str × Str))
    (h : ¬m.all (fun q => validEntry q.1 q.2) = true) :
    ∃ pre u p post, m = pre ++ (u, p) :: post ∧
      pre.all (fun q => validEntry q.1 q.2) = true ∧ validEntry u p = false := by
  induction m with
  | nil => simp at h
  | cons q rest ih =>
    obtain ⟨u, p⟩ := q
    by_cases hq : validEntry u p = true
    · have hrest : ¬rest.all (fun q => validEntry q.1 q.2) = true := by
        intro hh
        exact h (by simp [List.all_cons, hq, hh])
      obtain ⟨pre, u2, p2, post, heq, hpre, hbad⟩ := ih hrest
      exact ⟨(u, p) :: pre, u2, p2, post, by simp [heq],
        by simp [List.all_cons, hq, hpre], hbad⟩
    · exact ⟨[], u, p, rest, rfl, by simp, by simpa using hq⟩

/-- Claim C2: `Creds::write` serializes every entry as one line
`<username>:<password>` terminated by a newline, in insertion order;
it validates each pair before writing it, succeeds exactly when every
entry satisfies the character constraints, and on the first violation
found in iteration order it aborts with the `InvalidData` validation
error (a kind distinct from plain I/O errors), leaving on the stream
exactly the lines of the entries preceding the first invalid one. -/
theorem creds_c2_write (c : Creds) :
    ((c.write).2 = none ↔ c.map.all (fun q => validEntry q.1 q.2) = true)
    ∧ ((c.write).2 = none → (c.write).1 = linesOut c.map)
    ∧ ((c.write).2 ≠ none →
        (c.write).2 = some WriteError.invalidData ∧
        ∃ pre u p post, c.map = pre ++ (u, p) :: post ∧
          pre.all (fun q => validEntry q.1 q.2) = true ∧
          validEntry u p = false ∧ (c.write).1 = linesOut pre) := by
  by_cases hall : c.map.all (fun q => validEntry q.1 q.2) = true
  · have hval : ∀ q ∈ c.map, validEntry q.1 q.2 = true := by
      intro q hq
      exact List.all_eq_true.mp hall q hq
    have hw : c.write = (linesOut c.map, none) := writeAux_all_valid c.map hval
    refine ⟨?_, ?_, ?_⟩
    · rw [hw]
      simpa using hall
    · intro _
      rw [hw]
    · intro hne
      exact absurd (by rw [hw]) hne
  · obtain ⟨pre, u, p, post, heq, hpre, hbad⟩ := exists_first_invalid c.map hall
    have hpre2 : ∀ q ∈ pre, validEntry q.1 q.2 = true := by
      intro q hq
      exact List.all_eq_true.mp hpre q hq
    have hw : c.write = (linesOut pre, some WriteError.invalidData) := by
      rw [Creds.write, heq]
      exact writeAux_first_invalid pre u p post hpre2 hbad
    refine ⟨?_, ?_, ?_⟩
    · rw [hw]
      simpa using hall
    · intro hnone
      rw [hw] at hnone
      simp at hnone
    · intro _
      exact ⟨by rw [hw], pre, u, p, post, heq, hpre, hbad, by rw [hw]⟩

theorem creds_c2_write_witness :
    ((Creds.mk [("a:b".data, "x".data)]).write).2 = some WriteError.invalidData
    ∧ ((Creds.mk [("a".data, "1".data)]).write).1 = linesOut [("a".data, "1".data)] :=
  ⟨((creds_c2_write (Creds.mk [("a:b".data, "x".data)])).2.2 (by decide)).1,
    (creds_c2_write (Creds.mk [("a".data, "1".data)])).2.1 (by decide)⟩

/-- Claim C3: for every line containing a colon, `Creds::read` splits it
at the first colon: the username is everything before the first colon and
the password (unconstrained at parse time) is everything after it, and
processing such a line inserts exactly that pair. -/
theorem creds_c3_first_colon (u p : Str) (h : containsChar colonChar u = false) :
    splitOnce (u ++ colonChar :: p) = some (u, p)
    ∧ ∀ c : Creds, readLines c [u ++ colonChar :: p] = c.insert u p := by
  refine ⟨splitOnce_line u p h, fun c => ?_⟩
  simp [readLines, splitOnce_line u p h]

theorem creds_c3_first_colon_witness :
    splitOnce ("user".data ++ colonChar :: "pass:extra".data)
      = some ("user".data, "pass:extra".data)
    ∧ readLines Creds.new ["user".data ++ colonChar :: "pass:extra".data]
      = Creds.new.insert "user".data "pass:extra".data := by
  have h := creds_c3_first_colon "user".data "pass:extra".data (by decide)
  exact ⟨h.1, h.2 Creds.new⟩

/-- Claim C4: the store holds at most one entry per username: inserting an
existing username overwrites its password in place, keeping the key list
unchanged (in particular keeping its original position), inserting a fresh
username appends it at the end, and `new`, `clear`, `insert` and `read`
all preserve key uniqueness. -/
theorem creds_c4_unique (c : Creds) (u p : Str) :
    (c.insert u p).get u = some p
    ∧ (u ∈ keysOf c.map → keysOf ((c.insert u p).map) = keysOf c.map)
    ∧ (u ∉ keysOf c.map → keysOf ((c.insert u p).map) = keysOf c.map ++ [u])
    ∧ (Wf c → Wf (c.insert u p))
    ∧ Wf Creds.new
    ∧ Wf (c.clear)
    ∧ (∀ s : Str, Wf (Creds.read s)) := by
  refine ⟨?_, ?_, ?_, ?_, ?_, ?_, ?_⟩
  · rw [Creds.get, Creds.insert, getPair_insertPair]
    simp
  · intro hmem
    rw [Creds.insert, keysOf_insertPair]
    simp [hmem]
  · intro hmem
    rw [Creds.insert, keysOf_insertPair]
    simp [hmem]
  · intro hwf
    exact nodup_keysOf_insertPair u p c.map hwf
  · simp [Creds.new, Wf, keysOf]
  · simp [Creds.clear, Wf, keysOf]
  · intro s
    rw [Creds.read, readLines_eq_insertAll]
    exact nodup_keysOf_insertAll _ _ (by simp [Creds.new, keysOf])

theorem creds_c4_unique_witness :
    ((Creds.mk [("a".data, "1".data), ("b".data, "2".data)]).insert "a".data "3".data).get "a".data
      = some "3".data
    ∧ keysOf (((Creds.mk [("a".data, "1".data), ("b".data, "2".data)]).insert "a".data "3".data).map)
      = keysOf (Creds.mk [("a".data, "1".data), ("b".data, "2".data)]).map := by
  have h := creds_c4_unique (Creds.mk [("a".data, "1".data), ("b".data, "2".data)]) "a".data "3".data
  exact ⟨h.1, h.2.1 (by decide)⟩

/-- Claim C5: `Creds::get` returns the stored password when the username
is present and `None` when it is not, for every store and username; it is
a total function and never fails. -/
theorem creds_c5_get (c : Creds) (u : Str) :
    (c.get u = none ↔ u ∉ keysOf c.map)
    ∧ (∀ p, c.get u = some p → (u, p) ∈ c.map)
    ∧ (Wf c → ∀ p, (u, p) ∈ c.map → c.get u = some p) :=
  ⟨getPair_eq_none_iff u c.map,
    fun p hp => getPair_mem u p c.map hp,
    fun hwf p hp => mem_getPair u p c.map hwf hp⟩

theorem creds_c5_get_witness :
    (Creds.mk [("a".data, "1".data)]).get "nonexistent".data = none
    ∧ (Creds.mk [("a".data, "1".data)]).get "a".data = some "1".data :=
  ⟨(creds_c5_get (Creds.mk [("a".data, "1".data)]) "nonexistent".data).1.mpr (by decide),
    (creds_c5_get (Creds.mk [("a".data, "1".data)]) "a".data).2.2 (by decide) "1".data (by decide)⟩

/-- Claim C6: indexed access on a present username returns its stored
password, and on an absent username it reaches the `panic!` branch
(modelled as `none`); it never returns a default value, since any value
it returns is exactly the stored one. -/
theorem creds_c6_index (c : Creds) (u : Str) :
    (∀ p, c.get u = some p → c.index u = some p)
    ∧ (u ∉ keysOf c.map → c.index u = none)
    ∧ (∀ p, c.index u = some p → c.get u = some p) := by
  refine ⟨?_, ?_, ?_⟩
  · intro p hp
    rw [Creds.index, hp]
  · intro hmem
    have hg : c.get u = none := (getPair_eq_none_iff u c.map).mpr hmem
    rw [Creds.index, hg]
  · intro p hp
    rw [Creds.index] at hp
    cases hg : c.get u with
    | none => rw [hg] at hp; simp at hp
    | some q => rw [hg] at hp; simpa [hg] using hp

theorem creds_c6_index_witness :
    (Creds.mk [("a".data, "1".data)]).index "a".data = some "1".data
    ∧ (Creds.mk [("a".data, "1".data)]).index "b".data = none :=
  ⟨(creds_c6_index (Creds.mk [("a".data, "1".data)]) "a".data).1 "1".data (by decide),
    (creds_c6_index (Creds.mk [("a".data, "1".data)]) "b".data).2.1 (by decide)⟩

/-- Claim C7: on read, a line without a colon (the empty line included)
is silently skipped, producing no entry and no error, and in particular
reading `"a:1\njunk\nb:2\n"` yields exactly the two entries `a→1` and
`b→2`; the model of `read` is a total function, so apart from the
abstracted stream I/O it succeeds on every input. -/
theorem creds_c7_skip (c : Creds) (l : Str) (ls : List Str) :
    (splitOnce l = none → readLines c (l :: ls) = readLines c ls)
    ∧ splitOnce [] = none
    ∧ (containsChar colonChar l = false → splitOnce l = none)
    ∧ Creds.read ("a:1\njunk\nb:2\n".data)
      = ⟨[("a".data, "1".data), ("b".data, "2".data)]⟩ := by
  refine ⟨?_, by simp [splitOnce], splitOnce_eq_none l, by decide⟩
  intro h
  simp [readLines, h]

theorem creds_c7_skip_witness :
    readLines Creds.new ["junk".data, "b:2".data] = readLines Creds.new ["b:2".data]
    ∧ splitOnce "junk".data = none := by
  have h := creds_c7_skip Creds.new "junk".data ["b:2".data]
  exact ⟨h.1 (h.2.2.1 (by decide)), h.2.2.1 (by decide)⟩

/-- Claim C8: `Creds::read` builds its result by applying `insert` to
every successfully split line in file order; consequently for a repeated
username the last line wins, and the iteration order of the result is the
order of first appearance of each username. -/
theorem creds_c8_last_wins (s : Str) (u : Str) :
    Creds.read s = ⟨insertAll [] (pairsOf s)⟩
    ∧ (Creds.read s).get u = lastVal u (pairsOf s)
    ∧ keysOf (Creds.read s).map = firstOrder [] (pairsOf s)
    ∧ Creds.read ("a:1\nb:2\na:3\n".data)
      = ⟨[("a".data, "3".data), ("b".data, "2".data)]⟩ := by
  have hread : Creds.read s = ⟨insertAll [] (pairsOf s)⟩ := by
    rw [Creds.read, readLines_eq_insertAll]
    rfl
  refine ⟨hread, ?_, ?_, by decide⟩
  · rw [hread, Creds.get]
    simp only
    rw [getPair_insertAll]
    cases lastVal u (pairsOf s) with
    | none => simp [getPair]
    | some w => simp
  · rw [hread]
    simp only
    rw [keysOf_insertAll]
    simp [keysOf, firstOrder]

/-- Claim C9: empty usernames and empty passwords are accepted
everywhere: a line starting with a colon parses to an entry with the
empty username, the empty username passes write validation and is
serialized as `:pw`, such entries round-trip exactly, and insert and get
handle them like any other value. -/
theorem creds_c9_empty_fields :
    splitOnce (":pw".data) = some ([], "pw".data)
    ∧ Creds.read (":pw\n".data) = Creds.mk [([], "pw".data)]
    ∧ validEntry [] "pw".data = true
    ∧ (Creds.mk [([], "pw".data)]).write = (":pw\n".data, none)
    ∧ Creds.read (((Creds.mk [([], "pw".data)]).write).1) = Creds.mk [([], "pw".data)]
    ∧ (Creds.mk [("u".data, [])]).write = ("u:\n".data, none)
    ∧ Creds.read (((Creds.mk [("u".data, [])]).write).1) = Creds.mk [("u".data, [])]
    ∧ (Creds.new.insert [] "pw".data).get [] = some "pw".data := by
  decide

/-- Claim C10: when `Creds::write` fails with the validation error, the
bytes emitted to the stream are exactly the serialized lines of the
entries strictly preceding the first invalid entry in iteration order;
the invalid entry and everything after it contribute no output. -/
theorem creds_c10_partial_output (pre : List (Str × Str)) (u p : Str)
    (post : List (Str × Str))
    (hpre : pre.all (fun q => validEntry q.1 q.2) = true)
    (hbad : validEntry u p = false) :
    (Creds.mk (pre ++ (u, p) :: post)).write
      = (linesOut pre, some WriteError.invalidData) := by
  rw [Creds.write]
  exact writeAux_first_invalid pre u p post
    (fun q hq => List.all_eq_true.mp hpre q hq) hbad

theorem creds_c10_partial_output_witness :
    (Creds.mk [("a".data, "1".data), ("b:c".data, "x".data), ("d".data, "2".data)]).write
      = (linesOut [("a".data, "1".data)], some WriteError.invalidData) :=
  creds_c10_partial_output [("a".data, "1".data)] "b:c".data "x".data
    [("d".data, "2".data)] (by decide) (by decide)

/-- Claim C1 (counterexample): the store holding the single entry
`"u" → "p\r"` satisfies all the character constraints the claim states
(no colon and no newline in the username, no newline in the password) and
has unique keys, yet writing it and reading the result back does not
reproduce it: `BufRead::lines` strips the trailing `"\r\n"` from the
written line `"u:p\r\n"`, so the password comes back as `"p"`. -/
theorem creds_c1_roundtrip_counterexample :
    validEntry "u".data "p\r".data = true
    ∧ Wf (Creds.mk [("u".data, "p\r".data)])
    ∧ (Creds.mk [("u".data, "p\r".data)]).write = ("u:p\r\n".data, none)
    ∧ Creds.read (((Creds.mk [("u".data, "p\r".data)]).write).1)
      = Creds.mk [("u".data, "p".data)]
    ∧ Creds.read (((Creds.mk [("u".data, "p\r".data)]).write).1)
      ≠ Creds.mk [("u".data, "p\r".data)] := by
  decide

/-- Claim C1 (amended): for every store with unique usernames whose
entries all satisfy the character constraints (no colon and no newline in
any username, no newline in any password) and, additionally, whose
passwords do not end with a carriage return, writing the store and
reading the result back yields the identical store — the same
username-to-password mapping in the same iteration order.  The empty
store is such a store, so it round-trips to itself. -/
theorem creds_c1_roundtrip (c : Creds) (hwf : Wf c)
    (hval : c.map.all (fun q => validEntry q.1 q.2) = true)
    (hcr : c.map.all (fun q => !endsWithCR q.2) = true) :
    (c.write).2 = none ∧ Creds.read ((c.write).1) = c := by
  have hval2 : ∀ q ∈ c.map, validEntry q.1 q.2 = true := by
    intro q hq
    exact List.all_eq_true.mp hval q hq
  have hcr2 : ∀ q ∈ c.map, endsWithCR q.2 = false := by
    intro q hq
    have h := List.all_eq_true.mp hcr q hq
    simpa using h
  have hw : c.write = (linesOut c.map, none) := writeAux_all_valid c.map hval2
  refine ⟨by rw [hw], ?_⟩
  rw [hw]
  show Creds.read (linesOut c.map) = c
  rw [Creds.read, readLines_eq_insertAll, splitLines_linesOut c.map hval2 hcr2,
    filterMap_splitOnce_lines c.map hval2]
  have hm : Creds.new.map = ([] : List (Str × Str)) := rfl
  rw [hm, insertAll_disjoint [] c.map hwf (by intro k _; simp [keysOf])]
  simp

theorem creds_c1_roundtrip_witness :
    ((Creds.mk [("alice".data, "pw1".data), ("bob".data, "pw2".data)]).write).2 = none
    ∧ Creds.read (((Creds.mk [("alice".data, "pw1".data), ("bob".data, "pw2".data)]).write).1)
      = Creds.mk [("alice".data, "pw1".data), ("bob".data, "pw2".data)]
    ∧ ((Creds.new).write).2 = none
    ∧ Creds.read (((Creds.new).write).1) = Creds.new := by
  have h1 := creds_c1_roundtrip (Creds.mk [("alice".data, "pw1".data), ("bob".data, "pw2".data)])
    (by decide) (by decide) (by decide)
  have h2 := creds_c1_roundtrip Creds.new (by decide) (by decide) (by decide)
  exact ⟨h1.1, h1.2, h2.1, h2.2⟩
